import Mathlib

/-!
# Ardite core: a shallow embedding of the schema/query validation engine,
# the dynamic value model and the query compiler, with the spec's claims
# settled as theorems.

Each definition is translated from the Rust source of `ardite-core`
(file and function named in its doc comment).  Machine integers are
modelled as `Int`/`Nat`; `LinearMap` (an insertion-ordered map backed by
a vector of pairs) is modelled as an association list; fallible code
returns `Except`/`Option`.
-/

set_option maxHeartbeats 1000000

/-- Stand-in for Rust `f64`/`f32` payloads.  Floating point itself is not
shallowly embeddable; the code under verification only ever compares
float payloads (a comparison that can be undecided) or carries them
around untouched, so we model a float as either an ordinary (ordered)
number or the unordered `nan`.  This keeps the shape of Rust's partial
comparison and of `PartialEq` (where `nan` is not equal to itself). -/
inductive F64 where
  | finite : Int → F64
  | nan : F64
deriving DecidableEq

/-- Rust `f64` equality (`PartialEq`): `nan` is not equal to anything. -/
def F64.beq : F64 → F64 → Bool
  | .finite a, .finite b => a = b
  | _, _ => false

/-- Rust `f64` comparison: defined on ordinary numbers, undecided on `nan`. -/
def F64.cmp : F64 → F64 → Option Ordering
  | .finite a, .finite b => some (compare a b)
  | _, _ => none

/-- Model of Rust `str::parse::<usize>()`: an optional leading `+` followed
by one or more ASCII decimal digits.  (Real `usize` parsing can also fail
by overflow, which no list producible here can distinguish.) -/
def parseUsize (s : String) : Option Nat :=
  let ds := match s.toList with
    | '+' :: rest => rest
    | cs => cs
  if ds ≠ [] ∧ ds.all Char.isDigit then
    some (ds.foldl (fun n c => 10 * n + (c.toNat - '0'.toNat)) 0)
  else
    none

/-- Model of the `^\d+$` regular expression check (`INTEGER_RE` in
`src/schema/schema.rs`): one or more decimal digits and nothing else. -/
def isDigits (s : String) : Bool :=
  s.toList ≠ [] && s.toList.all Char.isDigit

/-- `LinearMap::get`: first (and, under the map invariant, only) binding
of a key in the insertion-ordered association list. -/
def lmGet {α : Type} : List (String × α) → String → Option α
  | [], _ => none
  | (k, v) :: rest, key => if k = key then some v else lmGet rest key

/-- `LinearMap::insert`: replace the value in place if the key is bound,
otherwise append the new binding at the end. -/
def lmInsert {α : Type} : List (String × α) → String → α → List (String × α)
  | [], key, v => [(key, v)]
  | (k, w) :: rest, key, v =>
    if k = key then (k, v) :: rest else (k, w) :: lmInsert rest key v

/-- Pairwise-distinct key list (the `LinearMap` unique-keys invariant). -/
def keysDistinct : List String → Bool
  | [] => true
  | k :: rest => !(decide (k ∈ rest)) && keysDistinct rest

/-- `ErrorCode` from `src/error.rs`. -/
inductive ErrorCode where
  | badRequest
  | forbidden
  | notFound
  | notAcceptable
  | conflict
  | badRange
  | internal
  | notImplemented
deriving DecidableEq

/-- `Error` from `src/error.rs`: a code, a message and an optional hint. -/
structure Error where
  code : ErrorCode
  message : String
  hint : Option String
deriving DecidableEq

/-- `Error::validation` (`src/error.rs`): `BadRequest` with a hint. -/
def Error.validation (message hint : String) : Error :=
  ⟨ErrorCode.badRequest, message, some hint⟩

/-- `Error::internal` (`src/error.rs`): `Internal` with no hint. -/
def Error.internal (message : String) : Error :=
  ⟨ErrorCode.internal, message, none⟩

/-- `Error::invalid(message, hint)`, used by `Value::set` and the drivers.
The constructor itself lives in a revision of `error.rs` not present
under `src/`; per the spec's error shape (§6/§7) a malformed-input
failure carries the `BadRequest` code and a remediation hint.  No claim
depends on the code chosen here, only on the failure itself. -/
def Error.invalid (message hint : String) : Error :=
  ⟨ErrorCode.badRequest, message, some hint⟩

/-- `Error::new(ErrorCode::NotFound, message, None)` as used by
`Driver::read_one` (`src/driver/driver.rs`). -/
def Error.notFoundErr (message : String) : Error :=
  ⟨ErrorCode.notFound, message, none⟩

/-- `Value` from `src/value.rs`: a JSON-like tagged value.  `Object` is a
`LinearMap<String, Value>` (insertion-ordered association list), `Array`
a `Vec<Value>`.  The `I64`/`F64` payloads are modelled as `Int` and the
`F64` stand-in above. -/
inductive Value where
  | null
  | boolean : Bool → Value
  | i64 : Int → Value
  | f64 : F64 → Value
  | string : String → Value
  | object : List (String × Value) → Value
  | array : List Value → Value

/-- `Value::get` (`src/value.rs`): object key lookup, or array indexing
through `key.parse::<usize>()`; `None` on primitives. -/
def Value.get : Value → String → Option Value
  | .object m, key => lmGet m key
  | .array l, key =>
    match parseUsize key with
    | some i => l.get? i
    | none => none
  | _, _ => none

/-- `Value::get_path` (`src/value.rs`): left fold of `get` over the path. -/
def Value.getPath (v : Value) (path : List String) : Option Value :=
  path.foldl (fun acc key => acc.bind (fun w => Value.get w key)) (some v)

/-- `Value::debug_name` (`src/value.rs`). -/
def Value.debugName : Value → String
  | .null => "null"
  | .boolean _ => "boolean"
  | .i64 _ => "i64"
  | .f64 _ => "f64"
  | .string _ => "string"
  | .object _ => "object"
  | .array _ => "array"

/-- `Value::set` (`src/value.rs`): insert-or-replace on objects; in-range
index replacement on arrays; failure otherwise. -/
def Value.set : Value → String → Value → Except Error Value
  | .object m, key, new => .ok (.object (lmInsert m key new))
  | .array l, key, new =>
    match parseUsize key with
    | some index =>
      if index < l.length then
        .ok (.array (l.set index new))
      else
        .error (Error.invalid
          ("Can’t set index " ++ toString index ++
            " because it is out of range for array of length " ++
            toString l.length ++ ".")
          "Try setting an index inside the array’s bounds.")
    | none =>
      .error (Error.invalid
        ("Key ’" ++ key ++ "’ is not a positive integer and can’t be used to set a value for an array.")
        "Try using a positive integer like 0 as the key.")
  | v, key, _ =>
    .error (Error.invalid
      ("Cannot set key ’" ++ key ++ "’ for primitive value " ++ v.debugName ++ ".")
      "Try using setting a value on an object or an array instead.")

mutual

/-- Derived `PartialEq` for `Value` (`src/value.rs`): structural equality,
except that `f64` payloads compare by Rust float equality. -/
def Value.beq : Value → Value → Bool
  | .null, .null => true
  | .boolean a, .boolean b => a = b
  | .i64 a, .i64 b => a = b
  | .f64 a, .f64 b => F64.beq a b
  | .string a, .string b => a = b
  | .object a, .object b => Value.beqObj a b
  | .array a, .array b => Value.beqList a b
  | _, _ => false

/-- Element-wise equality of value arrays. -/
def Value.beqList : List Value → List Value → Bool
  | [], [] => true
  | a :: as', b :: bs' => Value.beq a b && Value.beqList as' bs'
  | _, _ => false

/-- Entry-wise equality of objects (`LinearMap` derived `PartialEq`
compares the underlying vectors of pairs in order). -/
def Value.beqObj : List (String × Value) → List (String × Value) → Bool
  | [], [] => true
  | (k, a) :: as', (l, b) :: bs' => k = l && Value.beq a b && Value.beqObj as' bs'
  | _, _ => false

end

/-- `PartialOrd for Value` (`src/value.rs`): only two values of the same
variant among `Null`, `Boolean`, `I64`, `F64`, `String` compare; every
other pair is undecided. -/
def Value.cmp : Value → Value → Option Ordering
  | .null, .null => some .eq
  | .boolean a, .boolean b => some (compare a b)
  | .i64 a, .i64 b => some (compare a b)
  | .f64 a, .f64 b => F64.cmp a b
  | .string a, .string b => some (compare a b)
  | _, _ => none

/-- Structural induction for `Value` that hands the inductive hypothesis
to every member of an object or array payload. -/
theorem Value.inductionOn (P : Value → Prop)
    (hnull : P .null)
    (hbool : ∀ b, P (.boolean b))
    (hint : ∀ n, P (.i64 n))
    (hflt : ∀ x, P (.f64 x))
    (hstr : ∀ s, P (.string s))
    (hobj : ∀ m, (∀ kv, kv ∈ m → P kv.2) → P (.object m))
    (harr : ∀ l, (∀ x, x ∈ l → P x) → P (.array l)) :
    ∀ v, P v
  | .null => hnull
  | .boolean b => hbool b
  | .i64 n => hint n
  | .f64 x => hflt x
  | .string s => hstr s
  | .object m => hobj m (fun kv hkv =>
      Value.inductionOn P hnull hbool hint hflt hstr hobj harr kv.2)
  | .array l => harr l (fun x hx =>
      Value.inductionOn P hnull hbool hint hflt hstr hobj harr x)
termination_by v => sizeOf v
decreasing_by
  · have h1 : sizeOf kv < sizeOf m := List.sizeOf_lt_of_mem hkv
    obtain ⟨k, w⟩ := kv
    simp at h1 ⊢
    omega
  · have h1 : sizeOf x < sizeOf l := List.sizeOf_lt_of_mem hx
    simp
    omega

/-- `Query` from `src/query.rs`: query everything, or a `LinearMap` of
named sub-queries. -/
inductive Query where
  | all
  | keys : List (String × Query) → Query

/-- `Schema` from `src/schema/schema.rs` (`SchemaType`; the `Schema`
struct is a plain wrapper around `SchemaType`, flattened here).  A
compiled regex is represented by its pattern text, and the float-valued
bounds by the `F64` stand-in; neither field is ever consulted by the
operations below. -/
inductive Schema where
  | none
  | null
  | boolean
  | number (multipleOf : Option F64) (minimum : Option F64)
      (exclusiveMinimum : Bool) (maximum : Option F64) (exclusiveMaximum : Bool)
  | string (minLength : Option Nat) (maxLength : Option Nat) (pattern : Option String)
  | array (items : Schema)
  | object (properties : List (String × Schema)) (required : List String)
      (additionalProperties : Bool)
  | enum (values : List Value)

/-- The `NO_PRIMITIVE_HINT` constant of `Schema::validate_query`. -/
def noPrimitiveHint : String :=
  "Try not querying specific properties of a primitive like `null` or `boolean`."

mutual

/-- `Schema::validate_query` (`src/schema/schema.rs`): match on the
schema/query pair; `Keys` queries against a primitive fail, `Keys`
queries against arrays and objects are checked key by key in insertion
order (the `keys().map(..).find(is_err)` in the source returns the first
failing key, i.e. a sequential short-circuit), and `Schema::None` or a
`Query::All` always pass. -/
def Schema.validateQuery : Schema → Query → Except Error Unit
  | .null, .keys _ =>
    .error (Error.validation "Cannot deeply query null." noPrimitiveHint)
  | .boolean, .keys _ =>
    .error (Error.validation "Cannot deeply query a boolean." noPrimitiveHint)
  | .number _ _ _ _ _, .keys _ =>
    .error (Error.validation "Cannot deeply query a number." noPrimitiveHint)
  | .string _ _ _, .keys _ =>
    .error (Error.validation "Cannot deeply query a string." noPrimitiveHint)
  | .array items, .keys queryProperties => validateArrayKeys items queryProperties
  | .object properties _ additionalProperties, .keys queryProperties =>
    validateObjectKeys properties additionalProperties queryProperties
  | .enum _, .keys _ =>
    .error (Error.validation "Cannot deeply query an enum." noPrimitiveHint)
  | .none, _ => .ok ()
  | _, .all => .ok ()
termination_by _ q => sizeOf q
decreasing_by all_goals (simp_wf; try omega)

/-- The per-key loop of the `(Array, Keys)` arm: every key must match
`^\d+$`, then the `items` schema is checked against the sub-query. -/
def validateArrayKeys (items : Schema) : List (String × Query) → Except Error Unit
  | [] => .ok ()
  | (key, subQuery) :: rest =>
    if isDigits key then
      match Schema.validateQuery items subQuery with
      | .ok _ => validateArrayKeys items rest
      | .error e => .error e
    else
      .error (Error.validation
        ("Cannot query non-integer \"" ++ key ++ "\" array property.")
        "Only query integer array keys like 1, 2, and 3.")
termination_by l => sizeOf l
decreasing_by all_goals (simp_wf; try omega)

/-- The per-key loop of the `(Object, Keys)` arm: keys present in
`properties` recurse into the property schema, the rest pass only when
`additional_properties` is set. -/
def validateObjectKeys (properties : List (String × Schema))
    (additionalProperties : Bool) : List (String × Query) → Except Error Unit
  | [] => .ok ()
  | (key, subQuery) :: rest =>
    match lmGet properties key with
    | some propertySchema =>
      match Schema.validateQuery propertySchema subQuery with
      | .ok _ => validateObjectKeys properties additionalProperties rest
      | .error e => .error e
    | Option.none =>
      if additionalProperties then
        validateObjectKeys properties additionalProperties rest
      else
        .error (Error.validation
          ("Cannot query object property \"" ++ key ++ "\".")
          "Query an object property that is defined in the schema.")
termination_by l => sizeOf l
decreasing_by all_goals (simp_wf; try omega)

end

/-- `Condition` from `src/query.rs`: a boolean predicate tree over
values.  (`True`, `False`, `Not`, `And`, `Or`, `Key`, `Equal`.) -/
inductive Condition where
  | tru
  | fls
  | not : Condition → Condition
  | and : List Condition → Condition
  | or : List Condition → Condition
  | key : String → Condition → Condition
  | equal : Value → Condition

mutual

/-- `Condition::is_true` (`src/query.rs`).  The `Not` arm of the source
calls `is_false`, which is literally `!is_true`, inlined here.  The
`Key` arm looks the key up (`value.get` with a one-key pointer) and is
false when the lookup fails; `Equal` compares with `PartialEq`. -/
def Condition.isTrue : Condition → Value → Bool
  | .tru, _ => true
  | .fls, _ => false
  | .not cond, value => !(Condition.isTrue cond value)
  | .and conds, value => allTrue conds value
  | .or conds, value => anyTrue conds value
  | .key k cond, value =>
    ((Value.get value k).map (fun sub => Condition.isTrue cond sub)).getD false
  | .equal other, value => Value.beq value other
termination_by c _ => sizeOf c
decreasing_by all_goals (simp_wf; try omega)

/-- `conds.iter().all(..)` in the `And` arm. -/
def allTrue : List Condition → Value → Bool
  | [], _ => true
  | c :: cs, value => Condition.isTrue c value && allTrue cs value
termination_by l _ => sizeOf l
decreasing_by all_goals (simp_wf; try omega)

/-- `conds.iter().any(..)` in the `Or` arm. -/
def anyTrue : List Condition → Value → Bool
  | [], _ => false
  | c :: cs, value => Condition.isTrue c value || anyTrue cs value
termination_by l _ => sizeOf l
decreasing_by all_goals (simp_wf; try omega)

end

/-- `Condition::is_false` (`src/query.rs`): the negation of `is_true`. -/
def Condition.isFalse (c : Condition) (value : Value) : Bool :=
  !(Condition.isTrue c value)

/-- `SortDirection` from `src/query.rs`. -/
inductive SortDirection where
  | ascending
  | descending
deriving DecidableEq

/-- `SortRule` from `src/query.rs`: a property pointer and a direction. -/
structure SortRule where
  property : List String
  direction : SortDirection

/-- `SortRule::new` (`src/query.rs`). -/
def SortRule.new (property : List String) (ascending : Bool) : SortRule :=
  ⟨property, if ascending then .ascending else .descending⟩

/-- `Range` from `src/query.rs`: an optional limit and an optional
offset (the spec calls the offset `skip`). -/
structure Range where
  limit : Option Nat
  offset : Option Nat

/-- `Range::new(offset, limit)` (`src/query.rs`). -/
def Range.new (offset limit : Option Nat) : Range :=
  ⟨limit, offset⟩

/-- `GenericRange::start` for `Range` (`src/query.rs`): the offset,
defaulting to `0`. -/
def Range.start (r : Range) : Nat :=
  r.offset.getD 0

/-- `GenericRange::end` for `Range` (`src/query.rs`): `offset + limit`
when a limit is present, unbounded otherwise. -/
def Range.stop (r : Range) : Option Nat :=
  r.limit.map (fun limit => r.offset.getD 0 + limit)

/-- `Itertools::slice` applied to a `Range` (used by `Memory::read`):
the elements of the sequence at positions `[start, end)`. -/
def Range.slice {α : Type} (r : Range) (xs : List α) : List α :=
  match r.stop with
  | some e => ((xs.drop r.start).take (e - r.start))
  | Option.none => xs.drop r.start

/-- The payload of a `value::Object` (`src/value.rs`), i.e. the record
type stored in driver collections. -/
abbrev Obj := List (String × Value)

/-- Modelled from the spec: `Condition::is_object_true`, used by
`Memory::read` (`src/driver/memory.rs`) but defined in a revision of
`query.rs` absent from `src/`.  Per §4.4/§8 a condition evaluated
against a stored record decides accept/reject exactly as evaluating the
condition against the record viewed as an object value. -/
def Condition.isObjectTrue (cond : Condition) (object : Obj) : Bool :=
  cond.isTrue (Value.object object)

/-- Modelled from the spec: `Sort::partial_cmp(a, b)`, used by
`Memory::read` (`src/driver/memory.rs`) but defined in a revision of
`query.rs` absent from `src/`.  Per §3 a sort rule orders two records by
the `Value` ordering (`src/value.rs`) of the values at its property
pointer, reversed when descending; a missing property or an unordered
pair of values leaves the comparison undecided. -/
def SortRule.cmpObjects (rule : SortRule) (a b : Obj) : Option Ordering :=
  match (Value.object a).getPath rule.property,
        (Value.object b).getPath rule.property with
  | some x, some y =>
    match rule.direction with
    | .ascending => Value.cmp x y
    | .descending => (Value.cmp x y).map Ordering.swap
  | _, _ => none

/-- The comparator built by `Memory::read` (`src/driver/memory.rs`):
`sorts.iter().fold(None, |ord, sort| ord.or_else(|| sort.partial_cmp(a, b))).unwrap_or(Equal)`.
Note that a rule that returns `Some(Equal)` stops the fold: only an
undecided (`None`) comparison falls through to the next rule. -/
def memCmp (sorts : List SortRule) (a b : Obj) : Ordering :=
  (sorts.foldl (fun ord sort => ord.orElse (fun _ => sort.cmpObjects a b)) none).getD .eq

/-- Stable insertion into a sorted list: the new element walks past the
elements strictly smaller than it and lands before the first element it
does not exceed, hence before any element comparing equal.  Rust's
`sort_by` is a stable sort, and a stable sort by a given comparator is
unique, so insertion sort models `Itertools::sorted_by`. -/
def insertSorted {α : Type} (cmp : α → α → Ordering) (x : α) : List α → List α
  | [] => [x]
  | y :: ys => if cmp x y = .gt then y :: insertSorted cmp x ys else x :: y :: ys

/-- Stable sort by a comparator (`Itertools::sorted_by`). -/
def sortedBy {α : Type} (cmp : α → α → Ordering) : List α → List α
  | [] => []
  | x :: xs => insertSorted cmp x (sortedBy cmp xs)

/-- `Memory::read` (`src/driver/memory.rs`): look the collection up in
the store, then `filter(is_object_true)`, then `slice(range)`, then
`sorted_by(..)` — note that the written pipeline applies the range
window BEFORE sorting.  A missing collection reads as empty. -/
def memoryRead (store : List (String × List Obj)) (name : String)
    (cond : Condition) (sorts : List SortRule) (range : Range) : List Obj :=
  match lmGet store name with
  | some objects =>
    sortedBy (memCmp sorts) (range.slice (objects.filter (fun o => cond.isObjectTrue o)))
  | Option.none => []

/-- The body of the default `Driver::read_one` (`src/driver/mod.rs`)
applied to the sequence returned by `read`: first element or `NotFound`,
`Internal` when a second element exists. -/
def readOneProcess (values : List Obj) : Except Error Obj :=
  match values with
  | [] => .error (Error.notFoundErr "No value was found for the condition.")
  | [value] => .ok value
  | _ :: _ :: _ =>
    .error (Error.internal "Read with a limit of one returned more than one value.")

/-- A driver `read` that honors its arguments (the hypothesis of the
`read_one` claim): it returns exactly the stored records satisfying the
condition, windowed by the range — for `read_one` the sort argument is
`Default::default()`, i.e. empty, so stable store order applies. -/
def honestRead (objects : List Obj) (cond : Condition) (range : Range) : List Obj :=
  range.slice (objects.filter (fun o => cond.isObjectTrue o))

/-- The default `Driver::read_one` (`src/driver/mod.rs`) running on top
of an argument-honoring `read`: `read` is called with
`Range::new(None, Some(1))` and the result processed as above. -/
def readOneHonest (objects : List Obj) (cond : Condition) : Except Error Obj :=
  readOneProcess (honestRead objects cond (Range.new none (some 1)))

/-- `Pointer::join(".")` — the dot-joined property path. -/
def dotJoin (pointer : List String) : String :=
  String.intercalate "." pointer

namespace MongoDB

/-- `bson::Bson` (the document database's native value type), as matched
by `src/driver/mongodb.rs`.  Binary payloads carry a subtype tag and
bytes; object ids, timestamps and dates are carried as their textual or
numeric payloads, which is all the code under verification reads. -/
inductive Bson where
  | floatingPoint : F64 → Bson
  | string : String → Bson
  | array : List Bson → Bson
  | document : List (String × Bson) → Bson
  | boolean : Bool → Bson
  | null
  | regExp : String → String → Bson
  | javaScriptCode : String → Bson
  | i32 : Int → Bson
  | i64 : Int → Bson
  | timeStamp : Int → Bson
  | binary : Nat → List Nat → Bson
  | objectId : String → Bson
  | utcDatetime : String → Bson

/-- `Condition` in the revision used by `src/driver/mongodb.rs`
(`True`, `False`, `Not`, `And`, `Or`, `Keys(LinearMap)`, `Equal`). -/
inductive Condition where
  | tru
  | fls
  | not : Condition → Condition
  | and : List Condition → Condition
  | or : List Condition → Condition
  | keys : List (String × Condition) → Condition
  | equal : Value → Condition

/-- `impl Into<Bson> for Value` (`src/driver/mongodb.rs`), with an
explicit call-depth fuel.  The `Object` arm of the source is
`Value::Object(object) => Value::Object(object).into()` — a call of this
very conversion on the very same value — so the translation recurses on
the unchanged object and only the fuel decreases. -/
def valueIntoBson : Nat → Value → Option Bson
  | 0, _ => none
  | _ + 1, Value.null => some Bson.null
  | _ + 1, Value.boolean b => some (Bson.boolean b)
  | _ + 1, Value.i64 n => some (Bson.i64 n)
  | _ + 1, Value.f64 x => some (Bson.floatingPoint x)
  | _ + 1, Value.string s => some (Bson.string s)
  | n + 1, Value.object m => valueIntoBson n (Value.object m)
  | n + 1, Value.array l => (l.mapM (valueIntoBson n)).map Bson.array

mutual

/-- `condition_to_filter` (`src/driver/mongodb.rs`): `True`/`False`
compile to `$where` predicates, `Not`/`And`/`Or` to the matching `$`
combinators, `Equal` to `$eq` of the converted value, and `Keys` to a
single flat document built by `add_keys`.  The fuel is consumed only by
the embedded `Value` → `Bson` conversion. -/
def conditionToFilter (fuel : Nat) : Condition → Option Bson
  | .keys keys => (addKeys fuel [] [] keys).map Bson.document
  | .tru => some (Bson.document [("$where", Bson.string "true")])
  | .fls => some (Bson.document [("$where", Bson.string "false")])
  | .not cond =>
    (conditionToFilter fuel cond).map (fun b => Bson.document [("$not", b)])
  | .and conds =>
    (filterList fuel conds).map (fun l => Bson.document [("$and", Bson.array l)])
  | .or conds =>
    (filterList fuel conds).map (fun l => Bson.document [("$or", Bson.array l)])
  | .equal value =>
    (valueIntoBson fuel value).map (fun b => Bson.document [("$eq", b)])
termination_by c => sizeOf c
decreasing_by all_goals (simp_wf; try omega)

/-- `conds.into_iter().map(condition_to_filter).collect()`. -/
def filterList (fuel : Nat) : List Condition → Option (List Bson)
  | [] => some []
  | c :: cs =>
    (conditionToFilter fuel c).bind (fun b => (filterList fuel cs).map (b :: ·))
termination_by l => sizeOf l
decreasing_by all_goals (simp_wf; try omega)

/-- The inner `add_keys` of `condition_to_filter`
(`src/driver/mongodb.rs`): walks the key map, extending the parent
pointer; a nested `Keys` recurses into the same document, any other
condition is compiled and inserted at the dot-joined pointer. -/
def addKeys (fuel : Nat) (doc : List (String × Bson)) (pointer : List String) :
    List (String × Condition) → Option (List (String × Bson))
  | [] => some doc
  | (key, .keys subKeys) :: rest =>
    (addKeys fuel doc (pointer ++ [key]) subKeys).bind
      (fun doc1 => addKeys fuel doc1 pointer rest)
  | (key, cond) :: rest =>
    (conditionToFilter fuel cond).bind
      (fun b => addKeys fuel (lmInsert doc (dotJoin (pointer ++ [key])) b) pointer rest)
termination_by l => sizeOf l
decreasing_by all_goals (simp_wf; try omega)

end

/-- The dot-joined leaf paths of a `Keys` map: a nested `Keys` extends
the pointer, any other condition becomes a leaf at the dot-joined path.
This list is one level deep by construction — it is the flattened form
the compiler must produce. -/
def keysLeaves (pointer : List String) :
    List (String × Condition) → List (String × Condition)
  | [] => []
  | (key, .keys subKeys) :: rest =>
    keysLeaves (pointer ++ [key]) subKeys ++ keysLeaves pointer rest
  | (key, cond) :: rest =>
    (dotJoin (pointer ++ [key]), cond) :: keysLeaves pointer rest
termination_by l => sizeOf l
decreasing_by all_goals (simp_wf; try omega)

/-- Compile each leaf condition and insert it at its flattened path, in
order, into one flat document. -/
def compileLeaves (fuel : Nat) (doc : List (String × Bson)) :
    List (String × Condition) → Option (List (String × Bson))
  | [] => some doc
  | (path, cond) :: rest =>
    (conditionToFilter fuel cond).bind
      (fun b => compileLeaves fuel (lmInsert doc path b) rest)

end MongoDB

/-- The JSON data model seen by the `Serialize`/`Deserialize`
implementations of `src/value.rs`.  `to_json`/`from_json` compose these
implementations with `serde_json`'s printer/parser, an external library
treated here as a faithful transport of this data model (non-negative
parsed integers arrive through the `u64` visitor). -/
inductive Json where
  | null
  | bool : Bool → Json
  | i64 : Int → Json
  | u64 : Nat → Json
  | f64 : F64 → Json
  | str : String → Json
  | arr : List Json → Json
  | obj : List (String × Json) → Json

mutual

/-- `impl Serialize for Value` (`src/value.rs`): each variant serializes
to the matching JSON form; objects serialize their entries in order. -/
def serializeValue : Value → Json
  | .null => .null
  | .boolean b => .bool b
  | .i64 n => .i64 n
  | .f64 x => .f64 x
  | .string s => .str s
  | .array l => .arr (serializeList l)
  | .object m => .obj (serializeObj m)
termination_by v => sizeOf v
decreasing_by all_goals (simp_wf; try omega)

/-- `value.serialize(serializer)` for each array element. -/
def serializeList : List Value → List Json
  | [] => []
  | v :: vs => serializeValue v :: serializeList vs
termination_by l => sizeOf l
decreasing_by all_goals (simp_wf; try omega)

/-- `self.0.serialize(serializer)` for the object's entries. -/
def serializeObj : List (String × Value) → List (String × Json)
  | [] => []
  | (k, v) :: rest => (k, serializeValue v) :: serializeObj rest
termination_by l => sizeOf l
decreasing_by all_goals (simp_wf; try omega)

end

/-- Rust `u64 as i64`: wrap into the signed 64-bit range (the `visit_u64`
arm of the `Value` visitor). -/
def u64AsI64 (n : Nat) : Int :=
  ((n : Int) + 2 ^ 63) % 2 ^ 64 - 2 ^ 63

mutual

/-- `impl Deserialize for Value` (`src/value.rs`, `ValueVisitor`):
booleans, signed and unsigned integers, floats, strings, `null`,
sequences and maps rebuild the matching `Value`; the map visitor
inserts every entry, in order, into a fresh `LinearMap`. -/
def deserializeJson : Json → Value
  | .null => .null
  | .bool b => .boolean b
  | .i64 n => .i64 n
  | .u64 n => .i64 (u64AsI64 n)
  | .f64 x => .f64 x
  | .str s => .string s
  | .arr l => .array (deserializeList l)
  | .obj m => .object (deserializeObj [] m)
termination_by j => sizeOf j
decreasing_by all_goals (simp_wf; try omega)

/-- The `VecVisitor` of the sequence arm. -/
def deserializeList : List Json → List Value
  | [] => []
  | j :: js => deserializeJson j :: deserializeList js
termination_by l => sizeOf l
decreasing_by all_goals (simp_wf; try omega)

/-- The `visit_map` loop: `while let Some((key, value)) = visitor.visit()
{ object.insert(key, value) }`. -/
def deserializeObj (acc : List (String × Value)) :
    List (String × Json) → List (String × Value)
  | [] => acc
  | (k, j) :: rest => deserializeObj (lmInsert acc k (deserializeJson j)) rest
termination_by l => sizeOf l
decreasing_by all_goals (simp_wf; try omega)

end

mutual

/-- The `LinearMap` unique-keys invariant, recursively at every object
node of a value (every `Value` built through `Object::insert` or
deserialized from JSON satisfies it). -/
def Value.wfObjects : Value → Bool
  | .object m => keysDistinct (m.map Prod.fst) && wfObjList m
  | .array l => wfArrList l
  | _ => true
termination_by v => sizeOf v
decreasing_by all_goals (simp_wf; try omega)

/-- All object entries well formed. -/
def wfObjList : List (String × Value) → Bool
  | [] => true
  | (_, v) :: rest => Value.wfObjects v && wfObjList rest
termination_by l => sizeOf l
decreasing_by all_goals (simp_wf; try omega)

/-- All array elements well formed. -/
def wfArrList : List Value → Bool
  | [] => true
  | v :: rest => Value.wfObjects v && wfArrList rest
termination_by l => sizeOf l
decreasing_by all_goals (simp_wf; try omega)

end

/-- Every schema accepts the query `All` (`(_, &Query::All) => Ok(())`). -/
theorem validateQuery_all (s : Schema) : s.validateQuery .all = .ok () := by
  cases s <;> simp [Schema.validateQuery]

/-- C1.  For an Object schema `O` with `additional_properties = false`,
`validate_query(O, Keys({k: All}))` is `Ok` exactly when `k` is a key of
`O`'s properties map, and a failure's message contains `k`. -/
theorem validate_object_single_key (props : List (String × Schema))
    (req : List String) (k : String) :
    (Schema.validateQuery (.object props req false) (.keys [(k, .all)]) = .ok () ↔
      (lmGet props k).isSome = true)
  ∧ (∀ e, Schema.validateQuery (.object props req false) (.keys [(k, .all)]) = .error e →
      ∃ pre post, e.message = pre ++ k ++ post) := by
  have hrun : Schema.validateQuery (.object props req false) (.keys [(k, .all)]) =
      validateObjectKeys props false [(k, .all)] := by
    simp [Schema.validateQuery]
  constructor
  · rw [hrun]
    cases h : lmGet props k with
    | none => simp [validateObjectKeys, h]
    | some ps => simp [validateObjectKeys, h, validateQuery_all]
  · intro e he
    rw [hrun] at he
    cases h : lmGet props k with
    | none =>
      simp [validateObjectKeys, h] at he
      exact ⟨"Cannot query object property \"", "\".", by
        rw [← he]
        simp [Error.validation]⟩
    | some ps =>
      simp [validateObjectKeys, h, validateQuery_all] at he

/-- C1 witness: the schema `Object{properties: {email}, additionalProperties: false}`
rejects `Keys({phone: All})` with a message containing `phone`, and
accepts `Keys({email: All})`. -/
theorem validate_object_single_key_witness :
    (∃ pre post,
      (Error.validation "Cannot query object property \"phone\"."
        "Query an object property that is defined in the schema.").message =
          pre ++ "phone" ++ post)
  ∧ Schema.validateQuery
      (.object [("email", .string (some 4) none none)] ["email"] false)
      (.keys [("email", .all)]) = .ok () := by
  constructor
  · exact (validate_object_single_key [("email", .string (some 4) none none)]
      ["email"] "phone").2 _ (by simp [Schema.validateQuery, validateObjectKeys, lmGet])
  · exact (validate_object_single_key [("email", .string (some 4) none none)]
      ["email"] "email").1.mpr (by simp [lmGet])

/-- C2.  For an Array schema, `validate_query(A, Keys({k: q}))` is `Ok`
exactly when `k` matches `^\d+$` and `A.items` accepts `q`; a
non-integer key fails with a message containing `k`. -/
theorem validate_array_single_key (items : Schema) (k : String) (q : Query) :
    (Schema.validateQuery (.array items) (.keys [(k, q)]) = .ok () ↔
      (isDigits k = true ∧ Schema.validateQuery items q = .ok ()))
  ∧ (isDigits k = false →
      ∃ e pre post,
        Schema.validateQuery (.array items) (.keys [(k, q)]) = .error e ∧
        e.message = pre ++ k ++ post) := by
  have hrun : Schema.validateQuery (.array items) (.keys [(k, q)]) =
      validateArrayKeys items [(k, q)] := by
    simp [Schema.validateQuery]
  constructor
  · rw [hrun]
    cases hd : isDigits k with
    | false => simp [validateArrayKeys, hd]
    | true =>
      cases hq : Schema.validateQuery items q with
      | ok u => cases u; simp [validateArrayKeys, hd, hq]
      | error e => simp [validateArrayKeys, hd, hq]
  · intro hd
    rw [hrun]
    refine ⟨Error.validation ("Cannot query non-integer \"" ++ k ++ "\" array property.")
        "Only query integer array keys like 1, 2, and 3.",
      "Cannot query non-integer \"", "\" array property.", ?_, ?_⟩
    · simp [validateArrayKeys, hd]
    · simp [Error.validation]

/-- C2 witness: an array-of-boolean schema rejects the key `hello` with
a message containing it, and accepts the key `1` with sub-query `All`. -/
theorem validate_array_single_key_witness :
    (∃ e pre post,
      Schema.validateQuery (.array .boolean) (.keys [("hello", .all)]) = .error e ∧
      e.message = pre ++ "hello" ++ post)
  ∧ Schema.validateQuery (.array .boolean) (.keys [("1", .all)]) = .ok () := by
  constructor
  · exact (validate_array_single_key .boolean "hello" .all).2 (by decide)
  · exact (validate_array_single_key .boolean "1" .all).1.mpr
      ⟨by decide, validateQuery_all .boolean⟩

/-- C7.  `Value::set` fails on every non-container; on an array it fails
exactly when the key does not parse to an index below the length and
otherwise replaces that position; on an object it always succeeds with
an insert-or-replace. -/
theorem value_set_spec :
    (∀ (v new : Value) (key : String),
      (∀ m, v ≠ .object m) → (∀ l, v ≠ .array l) →
        ∃ e, v.set key new = .error e)
  ∧ (∀ (m : List (String × Value)) (key : String) (new : Value),
      (Value.object m).set key new = .ok (.object (lmInsert m key new)))
  ∧ (∀ (l : List Value) (key : String) (new : Value),
      ((∃ w, (Value.array l).set key new = .ok w) ↔
        ∃ i, parseUsize key = some i ∧ i < l.length)
    ∧ (∀ i, parseUsize key = some i → i < l.length →
        (Value.array l).set key new = .ok (.array (l.set i new)))) := by
  refine ⟨?_, ?_, ?_⟩
  · intro v new key hobj harr
    cases v with
    | object m => exact absurd rfl (hobj m)
    | array l => exact absurd rfl (harr l)
    | null => exact ⟨_, rfl⟩
    | boolean b => exact ⟨_, rfl⟩
    | i64 n => exact ⟨_, rfl⟩
    | f64 x => exact ⟨_, rfl⟩
    | string s => exact ⟨_, rfl⟩
  · intro m key new
    rfl
  · intro l key new
    constructor
    · cases h : parseUsize key with
      | none => simp [Value.set, h]
      | some i =>
        by_cases hi : i < l.length
        · simp [Value.set, h, hi]
        · simp [Value.set, h, hi]
    · intro i hi hlen
      simp [Value.set, hi, hlen]

/-- C7 witness: setting fails on a primitive, replaces index 1 of a
3-element array, fails out of range, and insert-or-replaces on objects. -/
theorem value_set_spec_witness :
    (∃ e, (Value.i64 5).set "hello" (Value.boolean true) = .error e)
  ∧ (Value.array [Value.i64 1, Value.i64 2, Value.i64 3]).set "1" (Value.boolean true) =
      .ok (.array [Value.i64 1, Value.boolean true, Value.i64 3])
  ∧ (¬ ∃ w, (Value.array [Value.i64 1]).set "3" (Value.boolean true) = .ok w)
  ∧ (Value.object [("hello", Value.string "moon")]).set "hello" (Value.string "world") =
      .ok (.object [("hello", Value.string "world")]) := by
  refine ⟨?_, ?_, ?_, ?_⟩
  · exact value_set_spec.1 (Value.i64 5) (Value.boolean true) "hello"
      (by intro m h; cases h) (by intro l h; cases h)
  · exact (value_set_spec.2.2 [Value.i64 1, Value.i64 2, Value.i64 3] "1"
      (Value.boolean true)).2 1 (by decide) (by decide)
  · intro ⟨w, hw⟩
    have h1 := ((value_set_spec.2.2 [Value.i64 1] "3" (Value.boolean true)).1).mp ⟨w, hw⟩
    obtain ⟨i, hi1, hi2⟩ := h1
    have h3 : parseUsize "3" = some 3 := by decide
    rw [h3] at hi1
    have h4 : i = 3 := (Option.some_inj.mp hi1).symm
    simp at hi2
    omega
  · exact value_set_spec.2.1 [("hello", Value.string "moon")] "hello" (Value.string "world")

/-- C9.  The slice of a sequence through `Range {offset: s, limit: l}`
is exactly the segment of positions `[min(s,n), min(s+l,n))` in original
order; an absent offset behaves as `0` and an absent limit as unbounded. -/
theorem range_slice_window {α : Type} (s l : Nat) (lim : Option Nat) (xs : List α) :
    ((Range.new (some s) (some l)).slice xs =
      (xs.drop (min s xs.length)).take (min (s + l) xs.length - min s xs.length))
  ∧ (Range.new none lim).slice xs = (Range.new (some 0) lim).slice xs
  ∧ (Range.new (some s) none).slice xs = xs.drop s := by
  refine ⟨?_, ?_, ?_⟩
  · show (xs.drop s).take (s + l - s) = _
    rcases le_or_lt s xs.length with h | h
    · have hmin : min s xs.length = s := Nat.min_eq_left h
      rw [hmin]
      refine List.take_eq_take.mpr ?_
      simp
      omega
    · have h1 : xs.drop s = [] := List.drop_eq_nil_of_le (by omega)
      have h2 : xs.drop (min s xs.length) = [] := List.drop_eq_nil_of_le (by omega)
      rw [h1, h2]
      simp
  · cases lim <;> rfl
  · rfl

/-- C10.  `Condition::Key(k, c)` is true on `v` exactly when `v` has a
value at `k` on which `c` is true; a missing key (or a primitive) gives
`false` rather than an error, and `is_false` is the exact negation of
`is_true`. -/
theorem condition_key_semantics :
    (∀ (k : String) (c : Condition) (v : Value),
      (Condition.isTrue (.key k c) v = true ↔
        ∃ w, v.get k = some w ∧ Condition.isTrue c w = true))
  ∧ (∀ (k : String) (c : Condition) (v : Value),
      v.get k = none → Condition.isTrue (.key k c) v = false)
  ∧ (∀ (c : Condition) (v : Value),
      Condition.isFalse c v = !(Condition.isTrue c v)) := by
  refine ⟨?_, ?_, ?_⟩
  · intro k c v
    cases h : v.get k with
    | none => simp [Condition.isTrue, h]
    | some w => simp [Condition.isTrue, h]
  · intro k c v h
    simp [Condition.isTrue, h]
  · intro c v
    rfl

/-- C10 witness: `Key` on a primitive and on an object lacking the key
is false, on an object holding the key it follows the sub-condition. -/
theorem condition_key_semantics_witness :
    Condition.isTrue (.key "key" .tru) (Value.i64 8) = false
  ∧ Condition.isTrue (.key "key" .tru) (Value.object [("key", Value.string "v")]) = true := by
  constructor
  · exact condition_key_semantics.2.1 "key" .tru (Value.i64 8) rfl
  · exact (condition_key_semantics.1 "key" .tru
      (Value.object [("key", Value.string "v")])).mpr
      ⟨Value.string "v", by simp [Value.get, lmGet], by simp [Condition.isTrue]⟩

/-- C4 (code defect).  The `Object` arm of `impl Into<Bson> for Value`
(`src/driver/mongodb.rs`) calls the same conversion on the same value
(`Value::Object(object).into()`), so the conversion of any object value
never produces a result: no amount of call-depth fuel suffices.  The
claim (and the spec) say the conversion is total on every `Value`. -/
theorem valueIntoBson_object_no_fuel_suffices (fuel : Nat) (m : List (String × Value)) :
    MongoDB.valueIntoBson fuel (Value.object m) = none := by
  induction fuel with
  | zero => rfl
  | succ n ih => simpa [MongoDB.valueIntoBson] using ih

/-- C5 (counterexample).  A store holding two records that both match
the condition: the default `read_one` on an argument-honoring `read`
returns `Ok` with the first record — not the `Internal` failure the
claim requires for "two or more matches". -/
theorem read_one_two_matches_ok :
    (([[("a", Value.i64 1)], [("a", Value.i64 2)]] : List Obj).filter
        (fun o => Condition.tru.isObjectTrue o)).length = 2
  ∧ readOneHonest [[("a", Value.i64 1)], [("a", Value.i64 2)]] .tru =
      .ok [("a", Value.i64 1)] := by
  constructor
  · simp [Condition.isObjectTrue, Condition.isTrue]
  · simp [readOneHonest, honestRead, Condition.isObjectTrue, Condition.isTrue,
      Range.slice, Range.new, Range.start, Range.stop, readOneProcess]

/-- C5 (amended).  On an argument-honoring `read`, the default
`read_one` returns the first matching record whenever at least one
record matches, fails `NotFound` when none does, and fails `Internal`
exactly when `read` hands back more than one value despite the limit-1
range (a backend contract violation). -/
theorem read_one_amended (objects : List Obj) (cond : Condition) :
    (objects.filter (fun o => cond.isObjectTrue o) = [] →
      readOneHonest objects cond =
        .error (Error.notFoundErr "No value was found for the condition."))
  ∧ (∀ v vs, objects.filter (fun o => cond.isObjectTrue o) = v :: vs →
      readOneHonest objects cond = .ok v)
  ∧ (∀ results : List Obj, 2 ≤ results.length →
      readOneProcess results =
        .error (Error.internal "Read with a limit of one returned more than one value."))
  ∧ (∀ results : List Obj, readOneProcess results =
        .error (Error.internal "Read with a limit of one returned more than one value.") →
      2 ≤ results.length) := by
  refine ⟨?_, ?_, ?_, ?_⟩
  · intro h
    simp [readOneHonest, honestRead, Range.slice, Range.new, Range.start, Range.stop, h,
      readOneProcess]
  · intro v vs h
    simp [readOneHonest, honestRead, Range.slice, Range.new, Range.start, Range.stop, h,
      readOneProcess]
  · intro results h
    match results with
    | [] => simp at h
    | [r] => simp at h
    | r1 :: r2 :: rest => rfl
  · intro results h
    match results with
    | [] => simp [readOneProcess, Error.notFoundErr, Error.internal] at h
    | [r] => simp [readOneProcess] at h
    | r1 :: r2 :: rest => simp

/-- C5 witness for the amended statement: empty store gives `NotFound`
(code 404), one match is returned, and a two-element `read` result is
the `Internal` defensive failure. -/
theorem read_one_amended_witness :
    readOneHonest [] .tru = .error (Error.notFoundErr "No value was found for the condition.")
  ∧ readOneHonest [[("a", Value.i64 7)]] .tru = .ok [("a", Value.i64 7)]
  ∧ readOneProcess [[("a", Value.i64 1)], [("a", Value.i64 2)]] =
      .error (Error.internal "Read with a limit of one returned more than one value.") := by
  refine ⟨?_, ?_, ?_⟩
  · exact (read_one_amended [] .tru).1 rfl
  · exact (read_one_amended [[("a", Value.i64 7)]] .tru).2.1 [("a", Value.i64 7)] []
      (by simp [Condition.isObjectTrue, Condition.isTrue])
  · exact (read_one_amended [] .tru).2.2.1 [[("a", Value.i64 1)], [("a", Value.i64 2)]]
      (by simp)

/-- Compiling the leaves of an appended list is the bind of compiling
each part in turn. -/
theorem compileLeaves_append (fuel : Nat) (l1 l2 : List (String × MongoDB.Condition)) :
    ∀ doc, MongoDB.compileLeaves fuel doc (l1 ++ l2) =
      (MongoDB.compileLeaves fuel doc l1).bind
        (fun d => MongoDB.compileLeaves fuel d l2) := by
  induction l1 with
  | nil => intro doc; simp [MongoDB.compileLeaves]
  | cons pc rest ih =>
    intro doc
    obtain ⟨path, cond⟩ := pc
    simp only [List.cons_append, MongoDB.compileLeaves]
    cases MongoDB.conditionToFilter fuel cond with
    | none => simp
    | some b => simp [ih]

/-- `add_keys` builds exactly the flat document obtained by compiling
each dot-joined leaf path of the key map in order. -/
theorem addKeys_eq_leaves (fuel : Nat) :
    ∀ (n : Nat) (keys : List (String × MongoDB.Condition)), sizeOf keys ≤ n →
      ∀ (pointer : List String) (doc : List (String × MongoDB.Bson)),
        MongoDB.addKeys fuel doc pointer keys =
          MongoDB.compileLeaves fuel doc (MongoDB.keysLeaves pointer keys) := by
  intro n
  induction n with
  | zero =>
    intro keys hk pointer doc
    exfalso
    cases keys <;> simp at hk
  | succ n ih =>
    intro keys hk pointer doc
    match keys with
    | [] => simp [MongoDB.addKeys, MongoDB.keysLeaves, MongoDB.compileLeaves]
    | (key, cond) :: rest =>
      have hrest : sizeOf rest ≤ n := by simp at hk; omega
      cases cond with
      | keys subKeys =>
        have hsub : sizeOf subKeys ≤ n := by simp at hk; omega
        simp only [MongoDB.addKeys, MongoDB.keysLeaves]
        rw [compileLeaves_append, ih subKeys hsub (pointer ++ [key]) doc]
        cases MongoDB.compileLeaves fuel doc
            (MongoDB.keysLeaves (pointer ++ [key]) subKeys) with
        | none => simp
        | some d => simpa using ih rest hrest pointer d
      | tru =>
        simp only [MongoDB.addKeys, MongoDB.keysLeaves, MongoDB.compileLeaves]
        cases MongoDB.conditionToFilter fuel .tru with
        | none => simp
        | some b => simpa using ih rest hrest pointer _
      | fls =>
        simp only [MongoDB.addKeys, MongoDB.keysLeaves, MongoDB.compileLeaves]
        cases MongoDB.conditionToFilter fuel .fls with
        | none => simp
        | some b => simpa using ih rest hrest pointer _
      | not c =>
        simp only [MongoDB.addKeys, MongoDB.keysLeaves, MongoDB.compileLeaves]
        cases MongoDB.conditionToFilter fuel (.not c) with
        | none => simp
        | some b => simpa using ih rest hrest pointer _
      | and cs =>
        simp only [MongoDB.addKeys, MongoDB.keysLeaves, MongoDB.compileLeaves]
        cases MongoDB.conditionToFilter fuel (.and cs) with
        | none => simp
        | some b => simpa using ih rest hrest pointer _
      | or cs =>
        simp only [MongoDB.addKeys, MongoDB.keysLeaves, MongoDB.compileLeaves]
        cases MongoDB.conditionToFilter fuel (.or cs) with
        | none => simp
        | some b => simpa using ih rest hrest pointer _
      | equal v =>
        simp only [MongoDB.addKeys, MongoDB.keysLeaves, MongoDB.compileLeaves]
        cases MongoDB.conditionToFilter fuel (.equal v) with
        | none => simp
        | some b => simpa using ih rest hrest pointer _

/-- C3.  `condition_to_filter` flattens every chain of nested `Keys`
into one flat document whose field names are the dot-joined key paths
(`compileLeaves` of `keysLeaves`, a one-level list by construction); in
particular `Keys({a: Keys({b: Equal(4)})})` compiles to the one-level
document `{"a.b": {$eq: 4}}`, and sibling keys at the same depth land in
the same flat document. -/
theorem condition_keys_flatten :
    (∀ (fuel : Nat) (keys : List (String × MongoDB.Condition)),
      MongoDB.conditionToFilter fuel (.keys keys) =
        (MongoDB.compileLeaves fuel [] (MongoDB.keysLeaves [] keys)).map
          MongoDB.Bson.document)
  ∧ MongoDB.conditionToFilter 1 (.keys [("a", .keys [("b", .equal (Value.i64 4))])]) =
      some (.document [("a.b", .document [("$eq", .i64 4)])])
  ∧ MongoDB.conditionToFilter 1
      (.keys [("a", .keys [("b", .equal (Value.i64 4)), ("c", .equal (Value.i64 5))]),
              ("d", .equal (Value.boolean true))]) =
      some (.document [("a.b", .document [("$eq", .i64 4)]),
                       ("a.c", .document [("$eq", .i64 5)]),
                       ("d", .document [("$eq", .boolean true)])]) := by
  refine ⟨?_, ?_, ?_⟩
  · intro fuel keys
    rw [show MongoDB.conditionToFilter fuel (.keys keys) =
        (MongoDB.addKeys fuel [] [] keys).map MongoDB.Bson.document by
      simp [MongoDB.conditionToFilter]]
    rw [addKeys_eq_leaves fuel (sizeOf keys) keys le_rfl [] []]
  · have hab : String.intercalate.go "a" "." ["b"] = "a.b" := by decide
    simp [MongoDB.conditionToFilter, MongoDB.addKeys, MongoDB.valueIntoBson,
      dotJoin, lmInsert, String.intercalate, hab]
  · have hab : String.intercalate.go "a" "." ["b"] = "a.b" := by decide
    have hac : String.intercalate.go "a" "." ["c"] = "a.c" := by decide
    have hd : String.intercalate.go "d" "." [] = "d" := by decide
    simp [MongoDB.conditionToFilter, MongoDB.addKeys, MongoDB.valueIntoBson,
      dotJoin, lmInsert, String.intercalate, hab, hac, hd]

/-- Inserting a key not yet bound appends the binding at the end. -/
theorem lmInsert_not_mem {α : Type} (k : String) (v : α) :
    ∀ (acc : List (String × α)), k ∉ acc.map Prod.fst →
      lmInsert acc k v = acc ++ [(k, v)] := by
  intro acc
  induction acc with
  | nil => intro _; rfl
  | cons p rest ih =>
    obtain ⟨a, w⟩ := p
    intro h
    have hak : a ≠ k := by
      intro he
      subst he
      exact h (by simp)
    have hrest : k ∉ rest.map Prod.fst := by
      intro hm
      exact h (by simp [hm])
    simp [lmInsert, hak, ih hrest]

/-- In a pairwise-distinct key list, a key never occurs twice: anything
to the left of an occurrence differs from it. -/
theorem keysDistinct_mid (k : String) :
    ∀ (l1 l2 : List String), keysDistinct (l1 ++ k :: l2) = true → k ∉ l1 := by
  intro l1
  induction l1 with
  | nil => intro l2 _; simp
  | cons a l1 ih =>
    intro l2 h
    simp [keysDistinct] at h
    intro hm
    rcases List.mem_cons.mp hm with he | hm1
    · subst he
      exact h.1.2.1 rfl
    · exact ih l2 h.2 hm1

/-- Deserializing the serialized entries of an object with distinct keys
(and round-tripping members) appends them, in order, to the visitor's
accumulator. -/
theorem deserializeObj_serializeObj :
    ∀ (m acc : List (String × Value)),
      keysDistinct ((acc ++ m).map Prod.fst) = true →
      (∀ kv ∈ m, deserializeJson (serializeValue kv.2) = kv.2) →
      deserializeObj acc (serializeObj m) = acc ++ m := by
  intro m
  induction m with
  | nil => intro acc _ _; simp [serializeObj, deserializeObj]
  | cons kv rest ih =>
    obtain ⟨k, v⟩ := kv
    intro acc hdist hrt
    have hv : deserializeJson (serializeValue v) = v := hrt (k, v) (by simp)
    have hknotin : k ∉ acc.map Prod.fst := by
      refine keysDistinct_mid k (acc.map Prod.fst) (rest.map Prod.fst) ?_
      simpa using hdist
    have hstep : deserializeObj acc (serializeObj ((k, v) :: rest)) =
        deserializeObj (acc ++ [(k, v)]) (serializeObj rest) := by
      simp [serializeObj, deserializeObj, hv, lmInsert_not_mem k v acc hknotin]
    rw [hstep, ih (acc ++ [(k, v)]) (by simpa using hdist)
      (fun kv1 hkv1 => hrt kv1 (by simp [hkv1]))]
    simp

/-- Serialized array elements deserialize back element-wise. -/
theorem deserializeList_serializeList :
    ∀ (l : List Value), (∀ x ∈ l, deserializeJson (serializeValue x) = x) →
      deserializeList (serializeList l) = l := by
  intro l
  induction l with
  | nil => intro _; simp [serializeList, deserializeList]
  | cons x rest ih =>
    intro h
    simp [serializeList, deserializeList, h x (by simp),
      ih (fun y hy => h y (by simp [hy]))]

/-- Members of a well-formed object list are well formed. -/
theorem wfObjList_mem :
    ∀ (m : List (String × Value)), wfObjList m = true →
      ∀ kv ∈ m, Value.wfObjects kv.2 = true := by
  intro m
  induction m with
  | nil => intro _ kv hkv; simp at hkv
  | cons p rest ih =>
    obtain ⟨a, w⟩ := p
    intro h kv hkv
    simp [wfObjList] at h
    rcases List.mem_cons.mp hkv with he | hm
    · subst he; exact h.1
    · exact ih h.2 kv hm

/-- Members of a well-formed element list are well formed. -/
theorem wfArrList_mem :
    ∀ (l : List Value), wfArrList l = true → ∀ x ∈ l, Value.wfObjects x = true := by
  intro l
  induction l with
  | nil => intro _ x hx; simp at hx
  | cons v rest ih =>
    intro h x hx
    simp [wfArrList] at h
    rcases List.mem_cons.mp hx with he | hm
    · subst he; exact h.1
    · exact ih h.2 x hm

/-- C8.  For every value whose object nodes satisfy the `LinearMap`
unique-keys invariant, serializing and then deserializing (the
`Serialize`/`Deserialize` implementations behind `to_json`/`from_json`)
is the identity. -/
theorem serialize_roundtrip (v : Value) (hwf : Value.wfObjects v = true) :
    deserializeJson (serializeValue v) = v := by
  induction v using Value.inductionOn with
  | hnull => simp [serializeValue, deserializeJson]
  | hbool b => simp [serializeValue, deserializeJson]
  | hint n => simp [serializeValue, deserializeJson]
  | hflt x => simp [serializeValue, deserializeJson]
  | hstr s => simp [serializeValue, deserializeJson]
  | hobj m ih =>
    simp [Value.wfObjects] at hwf
    simp [serializeValue, deserializeJson]
    rw [deserializeObj_serializeObj m [] (by simpa using hwf.1)
      (fun kv hkv => ih kv hkv (wfObjList_mem m hwf.2 kv hkv))]
    simp
  | harr l ih =>
    simp [Value.wfObjects] at hwf
    simp [serializeValue, deserializeJson]
    exact deserializeList_serializeList l
      (fun x hx => ih x hx (wfArrList_mem l hwf x hx))

/-- C8 witness: a nested object/array value round-trips. -/
theorem serialize_roundtrip_witness :
    Value.wfObjects (Value.object [("a", Value.i64 1),
      ("b", Value.object [("c", Value.null)]),
      ("d", Value.array [Value.boolean true, Value.string "x", Value.f64 (.finite 2)])]) = true
  ∧ deserializeJson (serializeValue (Value.object [("a", Value.i64 1),
      ("b", Value.object [("c", Value.null)]),
      ("d", Value.array [Value.boolean true, Value.string "x", Value.f64 (.finite 2)])])) =
    Value.object [("a", Value.i64 1),
      ("b", Value.object [("c", Value.null)]),
      ("d", Value.array [Value.boolean true, Value.string "x", Value.f64 (.finite 2)])] := by
  have hwf : Value.wfObjects (Value.object [("a", Value.i64 1),
      ("b", Value.object [("c", Value.null)]),
      ("d", Value.array [Value.boolean true, Value.string "x", Value.f64 (.finite 2)])]) = true := by
    simp [Value.wfObjects, wfObjList, wfArrList, keysDistinct]
  exact ⟨hwf, serialize_roundtrip _ hwf⟩

/-- C6 (code defect).  `Memory::read` as written filters, then applies
the range window, then sorts.  First conjunct: with records `{a:2}` and
`{a:1}`, sort ascending on `a` and limit 1, the code returns `[{a:2}]`
— the window is cut from the unsorted sequence, so the smallest record
is not the one returned.  Second conjunct: with two records tying on
rule `a` and differing on rule `b`, the comparator's
`ord.or_else(..)` fold stops at the first rule's `Some(Equal)`, so the
second rule never breaks the tie and input order is kept. -/
theorem memory_read_window_before_sort :
    memoryRead [("t", [[("a", Value.i64 2)], [("a", Value.i64 1)]])] "t"
      .tru [SortRule.new ["a"] true] (Range.new none (some 1)) = [[("a", Value.i64 2)]]
  ∧ memoryRead [("t", [[("a", Value.i64 1), ("b", Value.i64 2)],
                       [("a", Value.i64 1), ("b", Value.i64 1)]])] "t"
      .tru [SortRule.new ["a"] true, SortRule.new ["b"] true] (Range.new none none) =
      [[("a", Value.i64 1), ("b", Value.i64 2)], [("a", Value.i64 1), ("b", Value.i64 1)]]
  ∧ (Range.new none (some 1)).slice
      (sortedBy (memCmp [SortRule.new ["a"] true])
        [[("a", Value.i64 2)], [("a", Value.i64 1)]]) = [[("a", Value.i64 1)]] := by
  have hcmp11 : Value.cmp (Value.i64 1) (Value.i64 1) = some Ordering.eq := by decide
  have hcmp21 : Value.cmp (Value.i64 2) (Value.i64 1) = some Ordering.gt := by decide
  refine ⟨?_, ?_, ?_⟩
  · simp [memoryRead, lmGet, Condition.isObjectTrue, Condition.isTrue,
      Range.slice, Range.new, Range.start, Range.stop, sortedBy, insertSorted]
  · simp [memoryRead, lmGet, Condition.isObjectTrue, Condition.isTrue,
      Range.slice, Range.new, Range.start, Range.stop, sortedBy, insertSorted,
      memCmp, SortRule.cmpObjects, SortRule.new, Value.getPath, Value.get,
      Option.orElse, hcmp11]
  · simp [Range.slice, Range.new, Range.start, Range.stop, sortedBy, insertSorted,
      memCmp, SortRule.cmpObjects, SortRule.new, Value.getPath, Value.get,
      Option.orElse, lmGet, hcmp21]
